import Mathlib

/-!
Verification of the `multipledispatch` dispatcher (`src/multipledispatch/dispatcher.py`)
against its natural-language specification.

The embedding models:
  * Python `dict` (insertion-ordered, unique keys) as an association list
    (`Assoc.lookup` / `Assoc.insert` / `Assoc.keys`);
  * the `Dispatcher` object state (`funcs`, `ordering`, `_cache`) as the structure
    `MD.Dispatcher`; the `ordering` slot is `Option`-valued because `__init__` never
    assigns it — reading it on a fresh dispatcher raises `AttributeError` in Python;
  * `Dispatcher.resolve` as `MD.resolve`, returning the outcome together with the
    post-state (the cache is the only mutable part it touches); Python exceptions
    are the error codes `MD.RErr` (`notImplemented` for `NotImplementedError`,
    `attributeError` for the uninitialised-slot read, `keyError` for a signature
    present in `ordering` but absent from `funcs`);
  * `Dispatcher.add` as `MD.add`, returning the post-state and whether the
    ambiguity warning was emitted;
  * `Dispatcher.__call__` as `MD.callD` over values `V` carrying runtime types via
    `typeOf`, with implementations of type `List V → K → R` (positional arguments
    plus opaque keyword arguments).

The functions `ordering` and `ambiguities` live in `multipledispatch/conflict.py`,
which is not part of the sources given here; they are modelled from the spec
(sections 4.2 and 4.3) and marked as such in their doc comments.
-/

set_option linter.unusedSectionVars false
set_option linter.unusedVariables false

namespace MD

namespace Assoc

variable {K V : Type}

/-- Lookup in an insertion-ordered association list, the model of `d[k]` /
`k in d` on a Python `dict`. -/
def lookup [DecidableEq K] : List (K × V) → K → Option V
  | [], _ => none
  | (k, v) :: t, q => if q = k then some v else lookup t q

/-- Model of `d[k] = v` on a Python `dict`: replace in place when the key is
present (keeping its position), otherwise append at the end. -/
def insert [DecidableEq K] : List (K × V) → K → V → List (K × V)
  | [], k, v => [(k, v)]
  | (k', v') :: t, k, v => if k = k' then (k, v) :: t else (k', v') :: insert t k v

/-- The keys of the association list, in insertion order. -/
def keys (l : List (K × V)) : List K := l.map Prod.fst

theorem lookup_insert [DecidableEq K] (l : List (K × V)) (k : K) (v : V) :
    lookup (insert l k v) k = some v := by
  induction l with
  | nil => simp [insert, lookup]
  | cons p t ih =>
    by_cases h : k = p.1
    · simp [insert, lookup, h]
    · simp [insert, lookup, h, ih]

theorem lookup_mem [DecidableEq K] {l : List (K × V)} {k : K} {v : V}
    (h : lookup l k = some v) : (k, v) ∈ l := by
  induction l with
  | nil => simp [lookup] at h
  | cons p t ih =>
    rw [lookup] at h
    by_cases hk : k = p.1
    · rw [if_pos hk] at h
      injection h with h2
      have hkv : (k, v) = p := Prod.ext hk h2.symm
      rw [hkv]
      exact List.mem_cons_self _ _
    · rw [if_neg hk] at h
      exact List.mem_cons_of_mem _ (ih h)

theorem mem_keys_of_mem {l : List (K × V)} {p : K × V} (h : p ∈ l) :
    p.1 ∈ keys l := List.mem_map_of_mem Prod.fst h

theorem mem_keys_insert_self [DecidableEq K] (l : List (K × V)) (k : K) (v : V) :
    k ∈ keys (insert l k v) := by
  induction l with
  | nil => simp [insert, keys]
  | cons p t ih =>
    by_cases h : k = p.1
    · simp [insert, keys, h]
    · simp only [insert, if_neg h, keys, List.map_cons, List.mem_cons]
      exact Or.inr ih

theorem lookup_eq_none [DecidableEq K] {l : List (K × V)} {k : K} :
    lookup l k = none ↔ k ∉ keys l := by
  induction l with
  | nil => simp [lookup, keys]
  | cons p t ih =>
    rw [lookup]
    by_cases hk : k = p.1
    · simp [keys, hk]
    · simp [keys, hk, if_neg hk, ih]

end Assoc

/-- Results of a failed `resolve` call, the Python exception kinds that can
escape lines 110–122 of `dispatcher.py`. -/
inductive RErr : Type
  | notImplemented
  | attributeError
  | keyError
deriving DecidableEq

/-- State of a `Dispatcher` object (`__slots__ = 'name', 'funcs', 'ordering',
'_cache'`; the `name` slot only feeds warning text and is omitted).  `ordering`
is `Option`-valued because `__init__` leaves the slot unassigned: it only comes
into existence on the first `add`. -/
structure Dispatcher (T F : Type) where
  funcs : List (List T × F)
  ordering : Option (List (List T))
  cache : List (List T × F)

/-- Model of `Dispatcher.__init__`: empty registry, empty cache, `ordering`
slot not yet assigned. -/
def Dispatcher.init {T F : Type} : Dispatcher T F := ⟨[], none, []⟩

variable {T F : Type} [DecidableEq T]

/-- The guard of the scan in `resolve` (line 118):
`len(signature) == n and all(map(issubclass, types, signature))`.
`leSig sub a b` holds when `a` and `b` have equal length and `a` is pointwise a
subtype of `b` — the specificity order of spec section 4.2. -/
def leSig (sub : T → T → Bool) (a b : List T) : Bool :=
  a.length == b.length && (a.zip b).all fun p => sub p.1 p.2

/-- Strict specificity: `a` pointwise below `b` and distinct from it. -/
def strictMS (sub : T → T → Bool) (a b : List T) : Bool :=
  leSig sub a b && !(decide (a = b))

/-- A signature may be emitted next by the stable topological sort when no
remaining signature is strictly more specific than it. -/
def emittable (sub : T → T → Bool) (xs : List (List T)) (x : List T) : Bool :=
  !(xs.any fun y => strictMS sub y x)

/-- Fuel-driven stable topological sort: repeatedly emit the earliest remaining
signature with no strictly-more-specific signature left, so that more specific
signatures come first and ties are broken by registration order.  If the strict
relation is cyclic (impossible for a genuine subtype oracle) the head is emitted
to keep the function total. -/
def topoAux (sub : T → T → Bool) : Nat → List (List T) → List (List T)
  | 0, xs => xs
  | fuel + 1, xs =>
    match xs.find? (emittable sub xs) with
    | some m => m :: topoAux sub fuel (@List.erase _ instBEqOfDecidableEq xs m)
    | none =>
      match xs with
      | [] => []
      | x :: rest => x :: topoAux sub fuel rest

/-- Modelled from the spec: `ordering` from `multipledispatch/conflict.py` is not
among the given sources.  Spec section 4.2: a stable topological linearization of
the registered signatures in which every signature precedes the signatures it is
strictly more specific than, ties broken by registration order. -/
def ordering (sub : T → T → Bool) (sigs : List (List T)) : List (List T) :=
  topoAux sub sigs.length sigs

/-- Modelled from the spec (section 4.3): two equal-length signatures are
consistent when at every position one bound is an ancestor of the other. -/
def consistent (sub : T → T → Bool) (a b : List T) : Bool :=
  a.length == b.length && (a.zip b).all fun p => sub p.1 p.2 || sub p.2 p.1

/-- Modelled from the spec (section 4.3): an ambiguous pair is an unordered pair
of distinct equal-length signatures, neither pointwise below the other, that are
pointwise consistent. -/
def ambiguous (sub : T → T → Bool) (a b : List T) : Bool :=
  consistent sub a b && !(leSig sub a b) && !(leSig sub b a)

/-- Modelled from the spec: `ambiguities` from `multipledispatch/conflict.py` is
not among the given sources.  Spec section 4.3: report every unordered pair of
registered signatures that is ambiguous. -/
def ambiguities (sub : T → T → Bool) : List (List T) → List (List T × List T)
  | [] => []
  | a :: rest =>
    ((rest.filter fun b => ambiguous sub a b).map fun b => (a, b)) ++
      ambiguities sub rest

/-- Model of `Dispatcher.add` (lines 56–75): store the mapping, recompute the
ordering over all current signatures, recompute the ambiguities and emit a
warning exactly when some exist (the returned `Bool`), and clear the cache. -/
def add (sub : T → T → Bool) (d : Dispatcher T F) (signature : List T) (func : F) :
    Dispatcher T F × Bool :=
  let funcs := Assoc.insert d.funcs signature func
  ({ funcs := funcs
     ordering := some (ordering sub (Assoc.keys funcs))
     cache := [] },
   !(ambiguities sub (Assoc.keys funcs)).isEmpty)

/-- Model of `Dispatcher.resolve` (lines 110–122): cache hit, then exact
registered signature, then first pointwise match of the same length in the
ordering; otherwise `NotImplementedError`.  Reading the `ordering` slot on a
dispatcher that never saw an `add` raises `AttributeError`; a signature in the
ordering but not in `funcs` would raise `KeyError` at line 119. -/
def resolve (sub : T → T → Bool) (d : Dispatcher T F) (types : List T) :
    Except RErr F × Dispatcher T F :=
  match Assoc.lookup d.cache types with
  | some f => (.ok f, d)
  | none =>
    match Assoc.lookup d.funcs types with
    | some f => (.ok f, { d with cache := Assoc.insert d.cache types f })
    | none =>
      match d.ordering with
      | none => (.error .attributeError, d)
      | some ord =>
        match ord.find? (fun s => leSig sub types s) with
        | some s =>
          match Assoc.lookup d.funcs s with
          | some f => (.ok f, { d with cache := Assoc.insert d.cache types f })
          | none => (.error .keyError, d)
        | none => (.error .notImplemented, d)

/-- Model of `Dispatcher.__call__` (lines 77–80) over runtime values `V` typed
by `typeOf`, with opaque keyword arguments `K` and results `R`: compute the
tuple of runtime argument types, resolve it, and forward the original
positional and keyword arguments to the resolved implementation. -/
def callD {V K R : Type} (sub : T → T → Bool) (typeOf : V → T)
    (d : Dispatcher T (List V → K → R)) (args : List V) (kwargs : K) :
    Except RErr R × Dispatcher T (List V → K → R) :=
  let types := args.map fun a => typeOf a
  match resolve sub d types with
  | (.ok f, d') => (.ok (f args kwargs), d')
  | (.error e, d') => (.error e, d')

/-- Well-formedness of a dispatcher state, as maintained by `add` and
`resolve`: when the ordering slot exists it lists exactly the registered
signatures, and every cache entry was produced from some registered signature
pointwise dominating the cached type tuple. -/
def WF (sub : T → T → Bool) (d : Dispatcher T F) : Prop :=
  (∀ ord, d.ordering = some ord →
      (∀ s ∈ ord, s ∈ Assoc.keys d.funcs) ∧ (∀ s ∈ Assoc.keys d.funcs, s ∈ ord)) ∧
  (∀ p ∈ d.cache, ∃ S ∈ Assoc.keys d.funcs,
      Assoc.lookup d.funcs S = some p.2 ∧ leSig sub p.1 S = true)

/-- Structural-recursion restatement of `leSig`, convenient for induction. -/
def leSigR (sub : T → T → Bool) : List T → List T → Bool
  | [], [] => true
  | a :: as, b :: bs => sub a b && leSigR sub as bs
  | _, _ => false

theorem leSig_eq_leSigR (sub : T → T → Bool) :
    ∀ a b : List T, leSig sub a b = leSigR sub a b
  | [], [] => rfl
  | [], _ :: _ => rfl
  | _ :: _, [] => rfl
  | x :: as, y :: bs => by
    have ih := leSig_eq_leSigR sub as bs
    rw [leSigR, ← ih]
    rw [Bool.eq_iff_iff]
    simp only [leSig, Bool.and_eq_true, List.all_eq_true, List.zip_cons_cons,
      List.length_cons, List.mem_cons, beq_iff_eq, Nat.add_one_inj, List.all_cons]
    constructor
    · rintro ⟨h1, h2, h3⟩
      exact ⟨h2, h1, h3⟩
    · rintro ⟨h2, h1, h3⟩
      exact ⟨h1, h2, h3⟩

theorem leSig_length {sub : T → T → Bool} {a b : List T}
    (h : leSig sub a b = true) : a.length = b.length := by
  simp only [leSig, Bool.and_eq_true, beq_iff_eq] at h
  exact h.1

theorem leSig_refl {sub : T → T → Bool} (hrefl : ∀ a, sub a a = true) :
    ∀ a : List T, leSig sub a a = true := by
  intro a
  rw [leSig_eq_leSigR]
  induction a with
  | nil => rfl
  | cons x as ih => simp [leSigR, hrefl x, ih]

theorem leSigR_trans {sub : T → T → Bool}
    (htrans : ∀ a b c, sub a b = true → sub b c = true → sub a c = true) :
    ∀ a b c : List T, leSigR sub a b = true → leSigR sub b c = true →
      leSigR sub a c = true := by
  intro a
  induction a with
  | nil =>
    intro b c hab hbc
    cases b with
    | nil =>
      cases c with
      | nil => rfl
      | cons z cs => simp [leSigR] at hbc
    | cons y bs => simp [leSigR] at hab
  | cons x as ih =>
    intro b c hab hbc
    cases b with
    | nil => simp [leSigR] at hab
    | cons y bs =>
      cases c with
      | nil => simp [leSigR] at hbc
      | cons z cs =>
        rw [leSigR] at hab hbc ⊢
        simp only [Bool.and_eq_true] at hab hbc ⊢
        exact ⟨htrans x y z hab.1 hbc.1, ih bs cs hab.2 hbc.2⟩

theorem leSig_trans {sub : T → T → Bool}
    (htrans : ∀ a b c, sub a b = true → sub b c = true → sub a c = true)
    {a b c : List T} (hab : leSig sub a b = true) (hbc : leSig sub b c = true) :
    leSig sub a c = true := by
  rw [leSig_eq_leSigR] at hab hbc ⊢
  exact leSigR_trans htrans a b c hab hbc

theorem leSigR_antisymm {sub : T → T → Bool}
    (hanti : ∀ a b, sub a b = true → sub b a = true → a = b) :
    ∀ a b : List T, leSigR sub a b = true → leSigR sub b a = true → a = b := by
  intro a
  induction a with
  | nil =>
    intro b hab _
    cases b with
    | nil => rfl
    | cons y bs => simp [leSigR] at hab
  | cons x as ih =>
    intro b hab hba
    cases b with
    | nil => simp [leSigR] at hab
    | cons y bs =>
      rw [leSigR] at hab hba
      simp only [Bool.and_eq_true] at hab hba
      rw [hanti x y hab.1 hba.1, ih bs hab.2 hba.2]

theorem leSig_antisymm {sub : T → T → Bool}
    (hanti : ∀ a b, sub a b = true → sub b a = true → a = b)
    {a b : List T} (hab : leSig sub a b = true) (hba : leSig sub b a = true) :
    a = b := by
  rw [leSig_eq_leSigR] at hab hba
  exact leSigR_antisymm hanti a b hab hba

theorem strictMS_irrefl (sub : T → T → Bool) (a : List T) :
    strictMS sub a a = false := by
  simp [strictMS]

theorem strictMS_trans {sub : T → T → Bool}
    (htrans : ∀ a b c, sub a b = true → sub b c = true → sub a c = true)
    (hanti : ∀ a b, sub a b = true → sub b a = true → a = b)
    {a b c : List T} (hab : strictMS sub a b = true) (hbc : strictMS sub b c = true) :
    strictMS sub a c = true := by
  simp only [strictMS, Bool.and_eq_true, Bool.not_eq_true',
    decide_eq_false_iff_not] at hab hbc ⊢
  obtain ⟨hab1, hab2⟩ := hab
  obtain ⟨hbc1, hbc2⟩ := hbc
  refine ⟨leSig_trans htrans hab1 hbc1, ?_⟩
  intro hac
  subst hac
  exact hab2 (leSig_antisymm hanti hab1 hbc1)

theorem exists_emittable {sub : T → T → Bool}
    (htrans : ∀ a b c, sub a b = true → sub b c = true → sub a c = true)
    (hanti : ∀ a b, sub a b = true → sub b a = true → a = b) :
    ∀ xs : List (List T), xs ≠ [] → ∃ m ∈ xs, emittable sub xs m = true := by
  intro xs
  induction xs with
  | nil => intro h; exact absurd rfl h
  | cons x rest ih =>
    intro _
    cases rest with
    | nil =>
      refine ⟨x, List.mem_cons_self x [], ?_⟩
      simp [emittable, strictMS_irrefl]
    | cons y rest2 =>
      obtain ⟨m, hm, hem⟩ := ih (List.cons_ne_nil y rest2)
      simp only [emittable, Bool.not_eq_true', List.any_eq_false] at hem
      by_cases hxm : strictMS sub x m = true
      · refine ⟨x, List.mem_cons_self x _, ?_⟩
        simp only [emittable, Bool.not_eq_true', List.any_eq_false]
        intro z hz
        rcases List.mem_cons.mp hz with hzx | hz2
        · subst hzx
          simp [strictMS_irrefl]
        · intro hzx
          exact hem z hz2 (strictMS_trans htrans hanti hzx hxm)
      · refine ⟨m, List.mem_cons_of_mem x hm, ?_⟩
        simp only [emittable, Bool.not_eq_true', List.any_eq_false]
        intro z hz
        rcases List.mem_cons.mp hz with hzx | hz2
        · subst hzx
          exact hxm
        · exact hem z hz2

theorem topoAux_succ (sub : T → T → Bool) (n : Nat) (xs : List (List T)) :
    topoAux sub (n + 1) xs =
      match xs.find? (emittable sub xs) with
      | some m => m :: topoAux sub n (@List.erase _ instBEqOfDecidableEq xs m)
      | none =>
        match xs with
        | [] => []
        | x :: rest => x :: topoAux sub n rest := rfl

theorem topoAux_perm (sub : T → T → Bool) :
    ∀ (n : Nat) (xs : List (List T)), (topoAux sub n xs).Perm xs := by
  intro n
  induction n with
  | zero => intro xs; exact List.Perm.refl xs
  | succ n ih =>
    intro xs
    rw [topoAux_succ]
    cases hfind : xs.find? (emittable sub xs) with
    | some m =>
      have hmem : m ∈ xs := List.mem_of_find?_eq_some hfind
      exact List.Perm.trans (List.Perm.cons m (ih _)) (List.perm_cons_erase hmem).symm
    | none =>
      cases xs with
      | nil => exact List.Perm.refl _
      | cons x rest => exact List.Perm.cons x (ih rest)

theorem erase_length_mem {A : Type} [DecidableEq A] {a : A} {l : List A}
    (h : a ∈ l) : (l.erase a).length = l.length - 1 :=
  List.length_erase_of_mem h

theorem mem_erase_iff_ne {A : Type} [DecidableEq A] {a b : A} {l : List A}
    (hab : a ≠ b) : a ∈ l.erase b ↔ a ∈ l :=
  List.mem_erase_of_ne hab

theorem mem_of_erase {A : Type} [DecidableEq A] {a b : A} {l : List A}
    (h : a ∈ l.erase b) : a ∈ l :=
  List.mem_of_mem_erase h

theorem topoAux_find_first {sub : T → T → Bool}
    (htrans : ∀ a b c, sub a b = true → sub b c = true → sub a c = true)
    (hanti : ∀ a b, sub a b = true → sub b a = true → a = b)
    (P : List T → Bool) (S : List T) (hPS : P S = true) :
    ∀ (n : Nat) (xs : List (List T)), xs.length ≤ n → S ∈ xs →
      (∀ M ∈ xs, P M = true → M = S ∨ strictMS sub S M = true) →
      (topoAux sub n xs).find? P = some S := by
  intro n
  induction n with
  | zero =>
    intro xs hlen hS _
    rw [List.length_eq_zero.mp (Nat.le_zero.mp hlen)] at hS
    simp at hS
  | succ n ih =>
    intro xs hlen hS hmin
    rw [topoAux_succ]
    cases hfind : xs.find? (emittable sub xs) with
    | some m =>
      have hmem : m ∈ xs := List.mem_of_find?_eq_some hfind
      have hem : emittable sub xs m = true := List.find?_some hfind
      by_cases hms : m = S
      · subst hms
        exact List.find?_cons_of_pos _ hPS
      · have hPm : P m = false := by
          cases hPm : P m
          · rfl
          · rcases hmin m hmem hPm with h | h
            · exact absurd h hms
            · simp only [emittable, Bool.not_eq_true', List.any_eq_false] at hem
              exact absurd h (hem S hS)
        rw [List.find?_cons_of_neg _ (by simp [hPm])]
        apply ih
        · have := erase_length_mem hmem
          omega
        · exact (mem_erase_iff_ne fun h => hms h.symm).mpr hS
        · intro M hM hPM
          exact hmin M (mem_of_erase hM) hPM
    | none =>
      exfalso
      obtain ⟨m, hm, hem⟩ :=
        exists_emittable htrans hanti xs (by rintro rfl; simp at hS)
      rw [List.find?_eq_none] at hfind
      exact hfind m hm hem

/-- The spec-modelled ordering lists exactly the signatures it was computed
from (it is a permutation of them). -/
theorem ordering_perm (sub : T → T → Bool) (sigs : List (List T)) :
    (ordering sub sigs).Perm sigs :=
  topoAux_perm sub sigs.length sigs

/-- When the strict specificity relation is a genuine strict order and `S` is a
match that is strictly more specific than every other match in `sigs`, the scan
of the spec-modelled ordering finds `S` first. -/
theorem ordering_find_first {sub : T → T → Bool}
    (htrans : ∀ a b c, sub a b = true → sub b c = true → sub a c = true)
    (hanti : ∀ a b, sub a b = true → sub b a = true → a = b)
    (P : List T → Bool) (S : List T) (hPS : P S = true)
    (sigs : List (List T)) (hS : S ∈ sigs)
    (hmin : ∀ M ∈ sigs, P M = true → M = S ∨ strictMS sub S M = true) :
    (ordering sub sigs).find? P = some S :=
  topoAux_find_first htrans hanti P S hPS sigs.length sigs (Nat.le_refl _) hS hmin

theorem resolve_cache_hit {sub : T → T → Bool} {d : Dispatcher T F} {types : List T}
    {f : F} (h : Assoc.lookup d.cache types = some f) :
    resolve sub d types = (.ok f, d) := by
  simp [resolve, h]

theorem resolve_exact {sub : T → T → Bool} {d : Dispatcher T F} {types : List T}
    {f : F} (h0 : Assoc.lookup d.cache types = none)
    (h1 : Assoc.lookup d.funcs types = some f) :
    resolve sub d types = (.ok f, { d with cache := Assoc.insert d.cache types f }) := by
  simp [resolve, h0, h1]

theorem resolve_scan {sub : T → T → Bool} {d : Dispatcher T F} {types : List T}
    {ord : List (List T)} {S : List T} {f : F}
    (h0 : Assoc.lookup d.cache types = none)
    (h1 : Assoc.lookup d.funcs types = none)
    (h2 : d.ordering = some ord)
    (h3 : ord.find? (fun s => leSig sub types s) = some S)
    (h4 : Assoc.lookup d.funcs S = some f) :
    resolve sub d types = (.ok f, { d with cache := Assoc.insert d.cache types f }) := by
  simp [resolve, h0, h1, h2, h3, h4]

theorem resolve_no_match {sub : T → T → Bool} {d : Dispatcher T F} {types : List T}
    {ord : List (List T)}
    (h0 : Assoc.lookup d.cache types = none)
    (h1 : Assoc.lookup d.funcs types = none)
    (h2 : d.ordering = some ord)
    (h3 : ord.find? (fun s => leSig sub types s) = none) :
    resolve sub d types = (.error .notImplemented, d) := by
  simp [resolve, h0, h1, h2, h3]

/-- Full inversion of `resolve`: its result arises from exactly one of the five
branches of the source. -/
theorem resolve_inv {sub : T → T → Bool} {d : Dispatcher T F} {types : List T}
    {r : Except RErr F} {d' : Dispatcher T F}
    (h : resolve sub d types = (r, d')) :
    (∃ f, Assoc.lookup d.cache types = some f ∧ r = .ok f ∧ d' = d) ∨
    (Assoc.lookup d.cache types = none ∧
      ((∃ f, Assoc.lookup d.funcs types = some f ∧ r = .ok f ∧
          d' = { d with cache := Assoc.insert d.cache types f }) ∨
       (Assoc.lookup d.funcs types = none ∧
         ((d.ordering = none ∧ r = .error .attributeError ∧ d' = d) ∨
          (∃ ord, d.ordering = some ord ∧
            ((∃ S, ord.find? (fun s => leSig sub types s) = some S ∧
               ((∃ f, Assoc.lookup d.funcs S = some f ∧ r = .ok f ∧
                  d' = { d with cache := Assoc.insert d.cache types f }) ∨
                (Assoc.lookup d.funcs S = none ∧ r = .error .keyError ∧ d' = d))) ∨
             (ord.find? (fun s => leSig sub types s) = none ∧
               r = .error .notImplemented ∧ d' = d))))))) := by
  simp only [resolve] at h
  split at h
  next f0 heq =>
    injection h with h1 h2
    exact Or.inl ⟨f0, heq, h1.symm, h2.symm⟩
  next heq =>
    split at h
    next f0 heq2 =>
      injection h with h1 h2
      exact Or.inr ⟨heq, Or.inl ⟨f0, heq2, h1.symm, h2.symm⟩⟩
    next heq2 =>
      split at h
      next heq3 =>
        injection h with h1 h2
        exact Or.inr ⟨heq, Or.inr ⟨heq2, Or.inl ⟨heq3, h1.symm, h2.symm⟩⟩⟩
      next ord heq3 =>
        split at h
        next S heq4 =>
          split at h
          next f0 heq5 =>
            injection h with h1 h2
            exact Or.inr ⟨heq, Or.inr ⟨heq2, Or.inr ⟨ord, heq3,
              Or.inl ⟨S, heq4, Or.inl ⟨f0, heq5, h1.symm, h2.symm⟩⟩⟩⟩⟩
          next heq5 =>
            injection h with h1 h2
            exact Or.inr ⟨heq, Or.inr ⟨heq2, Or.inr ⟨ord, heq3,
              Or.inl ⟨S, heq4, Or.inr ⟨heq5, h1.symm, h2.symm⟩⟩⟩⟩⟩
        next heq4 =>
          injection h with h1 h2
          exact Or.inr ⟨heq, Or.inr ⟨heq2, Or.inr ⟨ord, heq3,
            Or.inr ⟨heq4, h1.symm, h2.symm⟩⟩⟩⟩

/-- A small concrete universe of host types for concrete runs of the model:
`integer ≤ number ≤ object`, `float ≤ number ≤ object`, `text ≤ object`. -/
inductive Ty : Type
  | object
  | number
  | integer
  | text
  | float
deriving DecidableEq, Fintype

/-- The concrete subtype oracle (the model's `issubclass`) for `Ty`. -/
def subD : Ty → Ty → Bool
  | .integer, .integer => true
  | .integer, .number => true
  | .integer, .object => true
  | .float, .float => true
  | .float, .number => true
  | .float, .object => true
  | .number, .number => true
  | .number, .object => true
  | .text, .text => true
  | .text, .object => true
  | .object, .object => true
  | _, _ => false

theorem subD_refl : ∀ a : Ty, subD a a = true := by decide

theorem subD_trans :
    ∀ a b c : Ty, subD a b = true → subD b c = true → subD a c = true := by decide

theorem subD_anti :
    ∀ a b : Ty, subD a b = true → subD b a = true → a = b := by decide

/-- Registry with `(number,) ↦ 1` registered. -/
def dNum : Dispatcher Ty Nat := (add subD Dispatcher.init [Ty.number] 1).1

/-- Registry with `(number,) ↦ 1` then `(integer,) ↦ 2` registered. -/
def dNumInt : Dispatcher Ty Nat := (add subD dNum [Ty.integer] 2).1

/-- Registry with `(integer,) ↦ 2` then `(number,) ↦ 1` registered. -/
def dIntNum : Dispatcher Ty Nat :=
  (add subD (add subD Dispatcher.init [Ty.integer] 2).1 [Ty.number] 1).1

/-- Registry with only `(text,) ↦ 5` registered. -/
def dText : Dispatcher Ty Nat := (add subD Dispatcher.init [Ty.text] 5).1

/-- Registry with `(text,) ↦ 5` then `(number,) ↦ 7` registered. -/
def dTextNum : Dispatcher Ty Nat := (add subD dText [Ty.number] 7).1

/-- Concrete runtime values for exercising `callD`. -/
inductive PyVal : Type
  | vint (n : Int)
  | vstr (s : String)
deriving DecidableEq

/-- Runtime type of a concrete value (the model's `type(arg)`). -/
def typeOfD : PyVal → Ty
  | .vint _ => .integer
  | .vstr _ => .text

/-- A concrete implementation that looks at positional and keyword arguments. -/
def implKw : List PyVal → Nat → Nat := fun args kw => args.length + kw

/-- Registry over implementations of type `List PyVal → Nat → Nat` with
`(integer,) ↦ implKw` registered. -/
def dKw : Dispatcher Ty (List PyVal → Nat → Nat) :=
  (add subD Dispatcher.init [Ty.integer] implKw).1

theorem find?_first {A : Type} (P : A → Bool) (pre : List A) (S : A) (rest : List A)
    (hpre : ∀ s ∈ pre, P s = false) (hS : P S = true) :
    (pre ++ S :: rest).find? P = some S := by
  induction pre with
  | nil => simpa using List.find?_cons_of_pos rest hS
  | cons x xs ih =>
    rw [List.cons_append,
      List.find?_cons_of_neg _ (by simp [hpre x (List.mem_cons_self x xs)])]
    exact ih fun s hs => hpre s (List.mem_cons_of_mem x hs)

theorem bnot_isEmpty_iff {A : Type} (l : List A) :
    ((!l.isEmpty) = true) ↔ l ≠ [] := by
  cases l <;> simp

theorem wf_dText : WF subD dText := by
  constructor
  · intro ord h
    injection h with h
    subst h
    exact ⟨by decide, by decide⟩
  · intro p hp
    have hc : dText.cache = [] := rfl
    rw [hc] at hp
    simp at hp

theorem wf_dNum : WF subD dNum := by
  constructor
  · intro ord h
    injection h with h
    subst h
    exact ⟨by decide, by decide⟩
  · intro p hp
    have hc : dNum.cache = [] := rfl
    rw [hc] at hp
    simp at hp

/-- C1: `resolve` follows exactly the spec's positive resolution steps, in
order: a tuple present in the cache is answered from the cache with no state
change; otherwise a tuple exactly equal to a registered signature has that
implementation cached and returned, whatever the ordering holds; otherwise the
scan of the ordering stops at the first same-length pointwise-dominating
signature, whose implementation is cached under the tuple and returned. -/
theorem C1_resolve_algorithm (sub : T → T → Bool) (d : Dispatcher T F) (types : List T) :
    (∀ f, Assoc.lookup d.cache types = some f → resolve sub d types = (.ok f, d)) ∧
    (∀ f, Assoc.lookup d.cache types = none →
      Assoc.lookup d.funcs types = some f →
      resolve sub d types = (.ok f, { d with cache := Assoc.insert d.cache types f })) ∧
    (∀ ord pre S rest f, Assoc.lookup d.cache types = none →
      Assoc.lookup d.funcs types = none → d.ordering = some ord →
      ord = pre ++ S :: rest → (∀ s ∈ pre, leSig sub types s = false) →
      leSig sub types S = true → Assoc.lookup d.funcs S = some f →
      resolve sub d types = (.ok f, { d with cache := Assoc.insert d.cache types f })) := by
  refine ⟨fun f h => resolve_cache_hit h, fun f h0 h1 => resolve_exact h0 h1, ?_⟩
  rintro ord pre S rest f h0 h1 h2 rfl hpre hS h4
  exact resolve_scan h0 h1 h2 (find?_first _ pre S rest hpre hS) h4

theorem C1_witness :
    resolve subD dTextNum [Ty.integer] =
      (.ok 7, { dTextNum with cache := Assoc.insert dTextNum.cache [Ty.integer] 7 }) :=
  (C1_resolve_algorithm subD dTextNum [Ty.integer]).2.2 [[Ty.text], [Ty.number]]
    [[Ty.text]] [Ty.number] [] 7 rfl rfl rfl rfl (by decide) (by decide) rfl

/-- C2 counterexample: the claim covers the empty registry, but on a freshly
constructed dispatcher `resolve` reads the never-assigned `ordering` slot and
so fails with an attribute error, not with `NotImplementedError` (the
`NoMatchingImplementation` failure). -/
theorem C2_counterexample :
    resolve subD (Dispatcher.init : Dispatcher Ty Nat) [Ty.integer] =
      (.error .attributeError, Dispatcher.init) ∧
    RErr.attributeError ≠ RErr.notImplemented :=
  ⟨rfl, by decide⟩

/-- C2 (amended): on every well-formed registry state whose `ordering` slot
exists (at least one `add` has happened) — including one whose only signature
is disjoint from the argument types — if no registered signature pointwise
dominates the argument tuple then `resolve` fails with `NotImplementedError`,
returning no implementation and leaving the state unchanged. -/
theorem C2_no_match_raises {sub : T → T → Bool} {d : Dispatcher T F}
    {types : List T} {ord : List (List T)}
    (hrefl : ∀ a, sub a a = true) (hwf : WF sub d) (hord : d.ordering = some ord)
    (hno : ∀ S ∈ Assoc.keys d.funcs, leSig sub types S = false) :
    resolve sub d types = (.error .notImplemented, d) := by
  have hcache : Assoc.lookup d.cache types = none := by
    cases hc : Assoc.lookup d.cache types with
    | none => rfl
    | some f =>
      exfalso
      obtain ⟨S, hSmem, _, hle⟩ := hwf.2 (types, f) (Assoc.lookup_mem hc)
      rw [hno S hSmem] at hle
      exact Bool.false_ne_true hle
  have hfuncs : Assoc.lookup d.funcs types = none := by
    cases hc : Assoc.lookup d.funcs types with
    | none => rfl
    | some f =>
      exfalso
      have hmem : types ∈ Assoc.keys d.funcs :=
        Assoc.mem_keys_of_mem (Assoc.lookup_mem hc)
      have hrefl2 := leSig_refl hrefl types
      rw [hno types hmem] at hrefl2
      exact Bool.false_ne_true hrefl2
  have hfind : ord.find? (fun s => leSig sub types s) = none := by
    rw [List.find?_eq_none]
    intro s hs
    have hmem : s ∈ Assoc.keys d.funcs := (hwf.1 ord hord).1 s hs
    simp [hno s hmem]
  exact resolve_no_match hcache hfuncs hord hfind

theorem C2_witness :
    resolve subD dText [Ty.integer] = (.error .notImplemented, dText) :=
  C2_no_match_raises subD_refl wf_dText rfl (by decide)

/-- C3: when `add` returns, the registry maps the signature to the new
implementation (replacing any earlier one), the ordering slot holds the
ordering freshly recomputed over the full current signature set (so it lists
exactly the registered signatures and is never stale), the warning was emitted
if and only if the recomputed ambiguity set is non-empty, and the cache is
empty. -/
theorem C3_add_postconditions (sub : T → T → Bool) (d : Dispatcher T F)
    (signature : List T) (func : F) :
    Assoc.lookup (add sub d signature func).1.funcs signature = some func ∧
    (add sub d signature func).1.ordering =
      some (ordering sub (Assoc.keys (add sub d signature func).1.funcs)) ∧
    (∀ s, s ∈ ordering sub (Assoc.keys (add sub d signature func).1.funcs) ↔
      s ∈ Assoc.keys (add sub d signature func).1.funcs) ∧
    ((add sub d signature func).2 = true ↔
      ambiguities sub (Assoc.keys (add sub d signature func).1.funcs) ≠ []) ∧
    (add sub d signature func).1.cache = [] := by
  refine ⟨Assoc.lookup_insert _ _ _, rfl, ?_, ?_, rfl⟩
  · intro s
    exact (ordering_perm sub _).mem_iff
  · exact bnot_isEmpty_iff _

/-- C4: after a cache entry for a tuple has been established by a resolve, if
`add` then registers a signature that matches the tuple and is strictly more
specific than every other registered match, the next resolve of that tuple
returns the newly registered implementation, not the previously cached one
(the subtype oracle is assumed reflexive, transitive and antisymmetric). -/
theorem C4_more_specific_wins {sub : T → T → Bool} {d d₁ : Dispatcher T F}
    {types Snew : List T} {fold fnew : F}
    (hrefl : ∀ a, sub a a = true)
    (htrans : ∀ a b c, sub a b = true → sub b c = true → sub a c = true)
    (hanti : ∀ a b, sub a b = true → sub b a = true → a = b)
    (hprior : resolve sub d types = (.ok fold, d₁))
    (hdom : leSig sub types Snew = true)
    (hbest : ∀ M ∈ Assoc.keys (add sub d₁ Snew fnew).1.funcs,
      leSig sub types M = true → M = Snew ∨ strictMS sub Snew M = true) :
    (resolve sub (add sub d₁ Snew fnew).1 types).1 = .ok fnew := by
  have hfuncs : (add sub d₁ Snew fnew).1.funcs = Assoc.insert d₁.funcs Snew fnew := rfl
  have hord : (add sub d₁ Snew fnew).1.ordering =
      some (ordering sub (Assoc.keys (add sub d₁ Snew fnew).1.funcs)) := rfl
  have hc0 : Assoc.lookup (add sub d₁ Snew fnew).1.cache types = none := rfl
  cases hft : Assoc.lookup (add sub d₁ Snew fnew).1.funcs types with
  | some f =>
    have hmem : types ∈ Assoc.keys (add sub d₁ Snew fnew).1.funcs :=
      Assoc.mem_keys_of_mem (Assoc.lookup_mem hft)
    have htS : types = Snew := by
      rcases hbest types hmem (leSig_refl hrefl types) with h | h
      · exact h
      · simp only [strictMS, Bool.and_eq_true, Bool.not_eq_true',
          decide_eq_false_iff_not] at h
        exact (h.2 (leSig_antisymm hanti h.1 hdom)).elim
    have hf : f = fnew := by
      rw [htS, hfuncs, Assoc.lookup_insert] at hft
      injection hft with hft
      exact hft.symm
    rw [resolve_exact hc0 hft, hf]
  | none =>
    have hSmem : Snew ∈ Assoc.keys (add sub d₁ Snew fnew).1.funcs := by
      rw [hfuncs]
      exact Assoc.mem_keys_insert_self _ _ _
    have hfind : (ordering sub (Assoc.keys (add sub d₁ Snew fnew).1.funcs)).find?
        (fun s => leSig sub types s) = some Snew :=
      ordering_find_first htrans hanti _ Snew hdom _ hSmem hbest
    have hlook : Assoc.lookup (add sub d₁ Snew fnew).1.funcs Snew = some fnew := by
      rw [hfuncs]
      exact Assoc.lookup_insert _ _ _
    rw [resolve_scan hc0 hft hord hfind hlook]

theorem C4_witness :
    (resolve subD (add subD (resolve subD dNum [Ty.integer]).2 [Ty.integer] 2).1
      [Ty.integer]).1 = .ok 2 :=
  C4_more_specific_wins subD_refl subD_trans subD_anti
    (rfl : resolve subD dNum [Ty.integer] =
      (.ok 1, (resolve subD dNum [Ty.integer]).2))
    (by decide) (by decide)

/-- C5: with `(number,) ↦ 1` and `(integer,) ↦ 2` registered (in either
registration order) and `integer` a subtype of `number`, resolving the tuple
`(integer,)` returns the implementation registered for `(integer,)`, never the
`(number,)` one. -/
theorem C5_specificity_wins :
    (resolve subD dNumInt [Ty.integer]).1 = .ok 2 ∧
    (resolve subD dIntNum [Ty.integer]).1 = .ok 2 :=
  ⟨rfl, rfl⟩

/-- C6: a successful resolve leaves the resolved implementation in the cache
under the exact tuple, so resolving the same tuple again without a mutation in
between returns the identical implementation with no state change — and the
second resolution depends on nothing but the cache: it returns the same answer
for any subtype oracle, any registry contents and any ordering slot, i.e. it
performs no ordering scan and no oracle queries. -/
theorem C6_cache_transparency {sub : T → T → Bool} {d d' : Dispatcher T F}
    {types : List T} {f : F} (h : resolve sub d types = (.ok f, d')) :
    Assoc.lookup d'.cache types = some f ∧
    resolve sub d' types = (.ok f, d') ∧
    (∀ (sub2 : T → T → Bool) (funcs2 : List (List T × F))
      (ord2 : Option (List (List T))),
      resolve sub2 ⟨funcs2, ord2, d'.cache⟩ types =
        (.ok f, ⟨funcs2, ord2, d'.cache⟩)) := by
  have hc : Assoc.lookup d'.cache types = some f := by
    rcases resolve_inv h with
      ⟨f0, hc, hr, hd⟩ |
      ⟨hc, ⟨f0, hl, hr, hd⟩ |
        ⟨hl, ⟨hordn, hr, hd⟩ |
          ⟨ord, hords, ⟨S, hfind, ⟨f0, hlS, hr, hd⟩ | ⟨hlS, hr, hd⟩⟩ |
            ⟨hfind, hr, hd⟩⟩⟩⟩
    · injection hr with hr
      subst hr hd
      exact hc
    · injection hr with hr
      subst hr hd
      exact Assoc.lookup_insert _ _ _
    · simp at hr
    · injection hr with hr
      subst hr hd
      exact Assoc.lookup_insert _ _ _
    · simp at hr
    · simp at hr
  exact ⟨hc, resolve_cache_hit hc, fun sub2 funcs2 ord2 => resolve_cache_hit hc⟩

theorem C6_witness :
    Assoc.lookup (resolve subD dNum [Ty.integer]).2.cache [Ty.integer] = some 1 ∧
    resolve subD (resolve subD dNum [Ty.integer]).2 [Ty.integer] =
      (.ok 1, (resolve subD dNum [Ty.integer]).2) := by
  have h := C6_cache_transparency
    (rfl : resolve subD dNum [Ty.integer] =
      (.ok 1, (resolve subD dNum [Ty.integer]).2))
  exact ⟨h.1, h.2.1⟩

/-- C7: every implementation returned by `resolve` on a well-formed state was
registered under a signature of exactly the same length as the argument tuple:
a signature of a different arity is never selected, regardless of subtype
relationships. -/
theorem C7_arity_isolation {sub : T → T → Bool} {d d' : Dispatcher T F}
    {types : List T} {f : F} (hwf : WF sub d)
    (h : resolve sub d types = (.ok f, d')) :
    ∃ S, Assoc.lookup d.funcs S = some f ∧ S.length = types.length := by
  rcases resolve_inv h with
    ⟨f0, hc, hr, hd⟩ |
    ⟨hc, ⟨f0, hl, hr, hd⟩ |
      ⟨hl, ⟨hordn, hr, hd⟩ |
        ⟨ord, hords, ⟨S, hfind, ⟨f0, hlS, hr, hd⟩ | ⟨hlS, hr, hd⟩⟩ |
          ⟨hfind, hr, hd⟩⟩⟩⟩
  · injection hr with hr
    rw [← hr] at hc
    obtain ⟨S, hSmem, hlook, hle⟩ := hwf.2 (types, f) (Assoc.lookup_mem hc)
    exact ⟨S, hlook, (leSig_length hle).symm⟩
  · injection hr with hr
    rw [← hr] at hl
    exact ⟨types, hl, rfl⟩
  · simp at hr
  · injection hr with hr
    rw [← hr] at hlS
    have hle : leSig sub types S = true := List.find?_some hfind
    exact ⟨S, hlS, (leSig_length hle).symm⟩
  · simp at hr
  · simp at hr

theorem C7_witness :
    ∃ S, Assoc.lookup dNum.funcs S = some 1 ∧
      S.length = ([Ty.integer] : List Ty).length :=
  C7_arity_isolation wf_dNum
    (rfl : resolve subD dNum [Ty.integer] =
      (.ok 1, (resolve subD dNum [Ty.integer]).2))

/-- C9: when `resolve` fails (with any of the errors that can escape it) the
dispatcher state — in particular the cache — is exactly as it was before the
call: cache entries are created only on successful resolution. -/
theorem C9_failed_resolve_preserves_state {sub : T → T → Bool}
    {d d' : Dispatcher T F} {types : List T} {e : RErr}
    (h : resolve sub d types = (.error e, d')) : d' = d := by
  rcases resolve_inv h with
    ⟨f0, hc, hr, hd⟩ |
    ⟨hc, ⟨f0, hl, hr, hd⟩ |
      ⟨hl, ⟨hordn, hr, hd⟩ |
        ⟨ord, hords, ⟨S, hfind, ⟨f0, hlS, hr, hd⟩ | ⟨hlS, hr, hd⟩⟩ |
          ⟨hfind, hr, hd⟩⟩⟩⟩ <;>
    first | exact hd | simp at hr

theorem C9_witness : (resolve subD dText [Ty.integer]).2 = dText :=
  C9_failed_resolve_preserves_state
    (rfl : resolve subD dText [Ty.integer] =
      (.error .notImplemented, (resolve subD dText [Ty.integer]).2))

/-- C8: `call` computes the argument-type tuple as the exact runtime type of
each positional argument, hands it to `resolve`, invokes the resolved
implementation on the original arguments, returns whatever the implementation
returns, and propagates the resolution failure unchanged. -/
theorem C8_calling_convention {V K R : Type} (sub : T → T → Bool)
    (typeOf : V → T) (d : Dispatcher T (List V → K → R)) (args : List V)
    (kwargs : K) :
    callD sub typeOf d args kwargs =
      ((resolve sub d (args.map fun a => typeOf a)).1.map fun f => f args kwargs,
        (resolve sub d (args.map fun a => typeOf a)).2) := by
  rcases hres : resolve sub d (args.map fun a => typeOf a) with ⟨r, d'⟩
  cases r with
  | ok f => simp [callD, hres, Except.map]
  | error e => simp [callD, hres, Except.map]

/-- C10: keyword arguments never influence dispatch: the tuple handed to
`resolve` is computed from the positional arguments alone, so for every choice
of keyword arguments the very same implementation is selected and the keyword
arguments are forwarded to it unchanged. -/
theorem C10_kwargs_no_dispatch_influence {V K R : Type} {sub : T → T → Bool}
    {typeOf : V → T} {d d' : Dispatcher T (List V → K → R)} {args : List V}
    {f : List V → K → R}
    (h : resolve sub d (args.map fun a => typeOf a) = (.ok f, d')) :
    ∀ kwargs : K, callD sub typeOf d args kwargs = (.ok (f args kwargs), d') := by
  intro kwargs
  simp [callD, h]

theorem C10_witness :
    callD subD typeOfD dKw [PyVal.vint 3] 5 =
      (.ok (implKw [PyVal.vint 3] 5), (resolve subD dKw [Ty.integer]).2) :=
  C10_kwargs_no_dispatch_influence
    (rfl : resolve subD dKw ([PyVal.vint 3].map fun a => typeOfD a) =
      (.ok implKw, (resolve subD dKw [Ty.integer]).2)) 5

end MD
